import Mathlib

/-!
Verification development for the order-lifecycle / greenhouse-supply /
delivery-fulfillment core of the greenwelt repository.

The Python source is shallowly embedded: Python dicts mapping plant
filenames to counts become association lists (`List (String × Nat)`)
with first-match lookup and in-place update, mirroring dict semantics;
float timers become rationals; the ambient randomness of the source
(`random.sample`, `random.uniform`) becomes explicit oracle parameters
(`sample`, `roll`) whose contracts appear as hypotheses where needed.
Mutable manager objects become explicit state records, and each method
becomes a state-transforming function.
-/

/-- First-match association-list lookup, mirroring Python dict key
presence (`k in d` iff the result is `some`). -/
def dictLookup : List (String × Nat) → String → Option Nat
  | [], _ => none
  | p :: rest, k => if p.1 = k then some p.2 else dictLookup rest k

/-- Python `d.get(k, 0)` on a filename-to-count dict. -/
def dictGet (d : List (String × Nat)) (k : String) : Nat :=
  (dictLookup d k).getD 0

/-- Python `d[k] = v`: replace the first binding of `k` in place if
present, otherwise append a new binding. -/
def dictSet : List (String × Nat) → String → Nat → List (String × Nat)
  | [], k, v => [(k, v)]
  | p :: rest, k, v =>
      if p.1 = k then (k, v) :: rest else p :: dictSet rest k v

theorem dictLookup_dictSet_self (d : List (String × Nat)) (k : String) (v : Nat) :
    dictLookup (dictSet d k v) k = some v := by
  induction d with
  | nil => simp [dictSet, dictLookup]
  | cons p rest ih =>
      by_cases h : p.1 = k
      · simp [dictSet, h, dictLookup]
      · simpa [dictSet, h, dictLookup] using ih

theorem dictGet_dictSet_self (d : List (String × Nat)) (k : String) (v : Nat) :
    dictGet (dictSet d k v) k = v := by
  simp [dictGet, dictLookup_dictSet_self]

theorem dictGet_dictSet_ne (d : List (String × Nat)) (k k' : String) (v : Nat)
    (h : k' ≠ k) : dictGet (dictSet d k v) k' = dictGet d k' := by
  induction d with
  | nil => simp [dictSet, dictGet, dictLookup, Ne.symm h]
  | cons p rest ih =>
      by_cases hp : p.1 = k
      · subst hp
        simp [dictSet, dictGet, dictLookup, Ne.symm h] at ih ⊢
      · by_cases hk' : p.1 = k'
        · simp [dictSet, hp, dictGet, dictLookup, hk', h]
        · simpa [dictSet, hp, dictGet, dictLookup, hk'] using ih

/-- Order lifecycle states, from `shared_components.OrderState`. -/
inductive OrderState where
  | AVAILABLE
  | INCOMING
  | VISIBLE
  | ACCEPTED
  | COMPLETED
  deriving DecidableEq, Repr

/-- A single plant request inside an order (`shared_components.PlantOrder`). -/
structure PlantOrder where
  filename : String
  name_fi : String
  name_en : String
  amount : Nat
  deriving DecidableEq, Repr

/-- A customer order (`shared_components.Order`, a Python `@dataclass`,
so equality — used by `in` / `remove` — is field-wise; `DecidableEq`
mirrors that).  `rolled_send_time` is assigned dynamically by
`select_next_batch` in the source; it is a plain field here. -/
structure Order where
  order_id : String
  customer_location : String
  customer_email : String
  plants : List PlantOrder
  state : OrderState
  send_time : ℚ
  countdown_to_visible : ℚ
  countdown_to_available : ℚ
  generated_text : String
  rolled_send_time : ℚ
  deriving DecidableEq, Repr

/-- The mutable state of `OrderManager` (plus the score / completion
tracking fields).  Counters are naturals; score quantities are integers
as in the Python source. -/
structure OMState where
  available_orders : List Order
  incoming_orders : List Order
  visible_orders : List Order
  accepted_orders : List Order
  completed_orders : List Order
  countdown_to_incoming : ℚ
  batch_size : Nat
  batch_delay : ℚ
  accept_time : ℚ
  active_order_limit : Nat
  orders_completed_count : Nat
  plants_delivered_count : Nat
  total_score : ℤ
  orders_required : Nat
  plants_required : Nat
  score_required : ℤ
  points_per_plant : ℤ
  full_order_bonus : ℤ
  map_completed : Bool
  deriving DecidableEq, Repr

/-- First pass of `OrderManager.select_next_batch`: walk the available
pool, picking orders whose location has not been chosen yet, until the
remaining quota `need` is exhausted. -/
def selectUnique : Nat → List String → List Order → List Order
  | _, _, [] => []
  | need, locs, o :: rest =>
      if need = 0 then []
      else if o.customer_location ∈ locs then selectUnique need locs rest
      else o :: selectUnique (need - 1) (o.customer_location :: locs) rest

/-- Second pass of `OrderManager.select_next_batch`: fill the remaining
quota from the pool, skipping orders already selected (Python `in` on a
dataclass compares field-wise, as does `DecidableEq Order`). -/
def fillRest : Nat → List Order → List Order → List Order
  | _, _, [] => []
  | need, sel, o :: rest =>
      if need = 0 then []
      else if o ∈ sel then fillRest need sel rest
      else o :: fillRest (need - 1) (o :: sel) rest

/-- The list of orders `OrderManager.select_next_batch` selects from the
available pool (deterministic given the pool; only the rolled send
delays are random). -/
def selectedBatch (st : OMState) : List Order :=
  let bc := min st.batch_size st.available_orders.length
  let s1 := selectUnique bc [] st.available_orders
  s1 ++ fillRest (bc - s1.length) s1 st.available_orders

/-- The per-order mutation `select_next_batch` applies to a selected
order: state INCOMING and a rolled visibility delay (the source rolls
`random.uniform(send_time/2, send_time)`; `roll` is that oracle). -/
def markIncoming (roll : Order → ℚ) (o : Order) : Order :=
  { o with state := OrderState.INCOMING,
           rolled_send_time := roll o,
           countdown_to_visible := roll o }

/-- `OrderManager.select_next_batch`. -/
def select_next_batch (roll : Order → ℚ) (st : OMState) : OMState :=
  if st.available_orders = [] then st
  else if st.active_order_limit ≤ st.accepted_orders.length then
    { st with countdown_to_incoming := 1 }
  else
    let sel := selectedBatch st
    { st with
      available_orders := sel.foldl (fun av o => av.erase o) st.available_orders,
      incoming_orders := st.incoming_orders ++ sel.map (markIncoming roll),
      countdown_to_incoming := st.batch_delay }

/-- `OrderManager.move_to_visible`: remove from incoming (if present),
set state VISIBLE, reset the spent countdown to the sentinel −1 and the
accept-window countdown to the full configured `accept_time`. -/
def move_to_visible (st : OMState) (o : Order) : OMState :=
  let inc := if o ∈ st.incoming_orders then st.incoming_orders.erase o
             else st.incoming_orders
  { st with
    incoming_orders := inc,
    visible_orders := st.visible_orders ++
      [{ o with state := OrderState.VISIBLE,
                countdown_to_visible := -1,
                countdown_to_available := st.accept_time }] }

/-- `OrderManager.move_to_available`: expire a visible order back to
the pool with both countdowns reset to −1. -/
def move_to_available (st : OMState) (o : Order) : OMState :=
  let vis := if o ∈ st.visible_orders then st.visible_orders.erase o
             else st.visible_orders
  { st with
    visible_orders := vis,
    available_orders := st.available_orders ++
      [{ o with state := OrderState.AVAILABLE,
                countdown_to_visible := -1,
                countdown_to_available := -1 }] }

/-- `OrderManager.accept_order`: no state check is performed; the order
is unconditionally marked ACCEPTED and appended to `accepted_orders`. -/
def accept_order (st : OMState) (o : Order) : OMState :=
  let vis := if o ∈ st.visible_orders then st.visible_orders.erase o
             else st.visible_orders
  { st with
    visible_orders := vis,
    accepted_orders := st.accepted_orders ++
      [{ o with state := OrderState.ACCEPTED,
                countdown_to_visible := -1,
                countdown_to_available := -1 }] }

/-- `OrderManager.complete_order`: no state check is performed; the
order is unconditionally marked COMPLETED, appended to
`completed_orders`, and the progress counters and score are updated. -/
def complete_order (st : OMState) (o : Order)
    (plants_delivered : Nat) (is_full_delivery : Bool) : OMState :=
  let acc := if o ∈ st.accepted_orders then st.accepted_orders.erase o
             else st.accepted_orders
  let earned : ℤ :=
    (plants_delivered : ℤ) * st.points_per_plant +
      (if is_full_delivery then st.full_order_bonus else 0)
  { st with
    accepted_orders := acc,
    completed_orders := st.completed_orders ++
      [{ o with state := OrderState.COMPLETED }],
    orders_completed_count := st.orders_completed_count + 1,
    plants_delivered_count := st.plants_delivered_count + plants_delivered,
    total_score := st.total_score + earned }

/-- `OrderManager.check_completion`: returns the boolean result together
with the updated state (the Python method mutates `map_completed`). -/
def check_completion (st : OMState) : Bool × OMState :=
  if st.map_completed then (true, st)
  else
    let orders_met := 0 < st.orders_required ∧
      st.orders_required ≤ st.orders_completed_count
    let plants_met := 0 < st.plants_required ∧
      st.plants_required ≤ st.plants_delivered_count
    let score_met := 0 < st.score_required ∧
      st.score_required ≤ st.total_score
    let done : Bool :=
      if orders_met then true
      else if plants_met then true
      else if score_met then true
      else false
    (done, { st with map_completed := done })

/-- Batch-countdown part of `OrderSystem.process`: only when there are
no INCOMING and no VISIBLE orders, decrement the batch timer and fire
`select_next_batch` when it crosses ≤ 0. -/
def processBatch (dt : ℚ) (roll : Order → ℚ) (st : OMState) : OMState :=
  if st.incoming_orders = [] ∧ st.visible_orders = [] then
    if st.countdown_to_incoming - dt ≤ 0 then
      select_next_batch roll { st with countdown_to_incoming := st.countdown_to_incoming - dt }
    else { st with countdown_to_incoming := st.countdown_to_incoming - dt }
  else st

/-- Incoming-order part of `OrderSystem.process`: decrement every
incoming order's `countdown_to_visible` by `dt`, then move those that
crossed ≤ 0 to visible. -/
def processIncoming (dt : ℚ) (st : OMState) : OMState :=
  let dec := st.incoming_orders.map
    (fun o => { o with countdown_to_visible := o.countdown_to_visible - dt })
  let toVis := dec.filter (fun o => o.countdown_to_visible ≤ 0)
  toVis.foldl move_to_visible { st with incoming_orders := dec }

/-- Visible-order part of `OrderSystem.process`: decrement every visible
order's `countdown_to_available` by `dt`, then expire those that crossed
≤ 0 back to the available pool. -/
def processVisible (dt : ℚ) (st : OMState) : OMState :=
  let dec := st.visible_orders.map
    (fun o => { o with countdown_to_available := o.countdown_to_available - dt })
  let toExp := dec.filter (fun o => o.countdown_to_available ≤ 0)
  toExp.foldl move_to_available { st with visible_orders := dec }

/-- One `OrderSystem.process(dt)` tick (the status-logging side effect
of the source is omitted): batch countdown, incoming-timer update,
visible-timer update, then the map-completion check. -/
def processTick (dt : ℚ) (roll : Order → ℚ) (st : OMState) : OMState :=
  (check_completion (processVisible dt (processIncoming dt (processBatch dt roll st)))).2

/-- A session operation on the order manager: an engine tick or one of
the player-driven synchronous calls. -/
inductive GameOp where
  | tick (dt : ℚ) (roll : Order → ℚ)
  | accept (o : Order)
  | complete (o : Order) (plants_delivered : Nat) (is_full_delivery : Bool)
  | check

/-- Apply one session operation. -/
def applyGameOp (st : OMState) : GameOp → OMState
  | GameOp.tick dt roll => processTick dt roll st
  | GameOp.accept o => accept_order st o
  | GameOp.complete o n b => complete_order st o n b
  | GameOp.check => (check_completion st).2

/-- Apply a sequence of session operations, oldest first. -/
def applyGameOps (ops : List GameOp) (st : OMState) : OMState :=
  ops.foldl applyGameOp st

/-- The fields `DeliveryDialog._calculate_delivery` computes. -/
structure DeliveryCalc where
  deliverable_amounts : List (String × Nat)
  total_deliverable : Nat
  total_requested : Nat
  can_deliver : Bool
  is_full_delivery : Bool
  points_preview : ℤ
  deriving DecidableEq, Repr

/-- One iteration of the plant loop in `_calculate_delivery`:
accumulates the deliverable dict and the two running totals. -/
def deliveryStep (inv : List (String × Nat))
    (acc : List (String × Nat) × Nat × Nat) (plant : PlantOrder) :
    List (String × Nat) × Nat × Nat :=
  let requested := plant.amount
  let available := dictGet inv plant.filename
  let deliverable := min requested available
  (dictSet acc.1 plant.filename deliverable,
   acc.2.1 + deliverable, acc.2.2 + requested)

/-- `DeliveryDialog._calculate_delivery` for an open dialog (order and
player inventory present; the `None` guard of the source is the
dialog-not-open path and is outside the fulfillment computation). -/
def calculate_delivery (order : Order) (inv : List (String × Nat))
    (points_per_plant full_order_bonus : ℤ) : DeliveryCalc :=
  let r := order.plants.foldl (deliveryStep inv) ([], 0, 0)
  let base : ℤ := (r.2.1 : ℤ) * points_per_plant
  { deliverable_amounts := r.1,
    total_deliverable := r.2.1,
    total_requested := r.2.2,
    can_deliver := decide (0 < r.2.1),
    is_full_delivery := decide (r.2.1 = r.2.2),
    points_preview := if r.2.1 = r.2.2 then base + full_order_bonus else base }

/-- The mutable state of `GreenhouseInventorySystem`. -/
structure GreenhouseState where
  inventory : List (String × Nat)
  all_plants : List String
  initial_amount : Nat
  grow_amount : Nat
  grow_time_min : ℚ
  grow_time_max : ℚ
  inventory_max : Nat
  grow_timer : ℚ
  next_grow_time : ℚ
  is_initialized : Bool
  deriving DecidableEq, Repr

/-- `GreenhouseInventorySystem.__init__`: empty inventory and the
default config values. -/
def mkGreenhouse : GreenhouseState :=
  { inventory := [], all_plants := [],
    initial_amount := 1, grow_amount := 3,
    grow_time_min := 30, grow_time_max := 60, inventory_max := 7,
    grow_timer := 0, next_grow_time := 0, is_initialized := false }

/-- `GreenhouseInventorySystem.set_config`. -/
def gh_set_config (initial_amount grow_amount : Nat)
    (grow_time_min grow_time_max : ℚ) (inventory_max : Nat)
    (st : GreenhouseState) : GreenhouseState :=
  { st with initial_amount := initial_amount, grow_amount := grow_amount,
            grow_time_min := grow_time_min, grow_time_max := grow_time_max,
            inventory_max := inventory_max }

/-- The growable subset computed by `_grow_plants`: plant types whose
current stock is strictly below `inventory_max`. -/
def growablePlants (st : GreenhouseState) : List String :=
  st.all_plants.filter (fun p => decide (dictGet st.inventory p < st.inventory_max))

/-- `GreenhouseInventorySystem._grow_plants`.  `sample` is the
`random.sample` oracle: it is handed the growable list and the count
`min grow_amount (length of the growable list)` and returns the chosen
plant types; its contract (distinct elements drawn from the given list)
appears as hypotheses of the theorems. -/
def grow_plants (sample : List String → Nat → List String)
    (st : GreenhouseState) : GreenhouseState :=
  let growable := growablePlants st
  if growable.length = 0 then st
  else
    let grow_count := min st.grow_amount growable.length
    let selected := sample growable grow_count
    { st with inventory :=
        selected.foldl (fun inv p => dictSet inv p (dictGet inv p + 1)) st.inventory }

/-- `GreenhouseInventorySystem.initialize`: the asset-folder plant list
(`_load_plant_list` reads the filesystem) is passed in as `plants`; the
inventory gets `initial_amount` per plant type and the growth timer is
rolled (`roll` is the `random.uniform(grow_time_min, grow_time_max)`
oracle). -/
def initGreenhouse (plants : List String) (roll : ℚ)
    (st : GreenhouseState) : GreenhouseState :=
  let st1 := { st with all_plants := st.all_plants ++ plants }
  let st2 := { st1 with inventory :=
    st1.all_plants.foldl (fun inv p => dictSet inv p st.initial_amount) st1.inventory }
  { st2 with next_grow_time := roll, grow_timer := 0, is_initialized := true }

/-- `GreenhouseInventorySystem.update(dt)`: accumulate the growth timer
and fire a growth event plus a re-roll when it reaches the rolled
interval. -/
def gh_update (dt : ℚ) (sample : List String → Nat → List String)
    (roll : ℚ) (st : GreenhouseState) : GreenhouseState :=
  if st.is_initialized = false then st
  else
    let st1 := { st with grow_timer := st.grow_timer + dt }
    if st1.next_grow_time ≤ st1.grow_timer then
      let st2 := grow_plants sample st1
      { st2 with next_grow_time := roll, grow_timer := 0 }
    else st1

/-- `GreenhouseInventorySystem.get_plant_count`. -/
def get_plant_count (st : GreenhouseState) (k : String) : Nat :=
  dictGet st.inventory k

/-- `GreenhouseInventorySystem.take_plant`: returns the Python boolean
result together with the updated state. -/
def take_plant (st : GreenhouseState) (k : String) : Bool × GreenhouseState :=
  if get_plant_count st k ≤ 0 then (false, st)
  else (true, { st with inventory := dictSet st.inventory k (dictGet st.inventory k - 1) })

/-- `GreenhouseInventorySystem.return_plant`: returns the Python boolean
result together with the updated state. -/
def return_plant (st : GreenhouseState) (k : String) : Bool × GreenhouseState :=
  let current := dictGet st.inventory k
  if st.inventory_max ≤ current then (false, st)
  else (true, { st with inventory := dictSet st.inventory k (current + 1) })

/-- A post-initialization operation on the greenhouse system. -/
inductive GhOp where
  | update (dt : ℚ) (sample : List String → Nat → List String) (roll : ℚ)
  | take (k : String)
  | ret (k : String)

/-- Apply one greenhouse operation. -/
def applyGhOp (st : GreenhouseState) : GhOp → GreenhouseState
  | GhOp.update dt sample roll => gh_update dt sample roll st
  | GhOp.take k => (take_plant st k).2
  | GhOp.ret k => (return_plant st k).2

/-- Apply a sequence of greenhouse operations, oldest first. -/
def applyGhOps (ops : List GhOp) (st : GreenhouseState) : GreenhouseState :=
  ops.foldl applyGhOp st

/-- The `random.sample` contract a growth-tick oracle satisfies: on a
duplicate-free population it returns distinct elements of that
population. -/
def SampleOk (sample : List String → Nat → List String) : Prop :=
  ∀ l n, l.Nodup → (sample l n).Nodup ∧ ∀ p ∈ sample l n, p ∈ l

/-- Validity of a greenhouse operation: growth ticks carry a sampling
oracle honouring the `random.sample` contract. -/
def GhOpOk : GhOp → Prop
  | GhOp.update _ sample _ => SampleOk sample
  | _ => True

theorem delivery_fold_totals (inv : List (String × Nat)) :
    ∀ (l : List PlantOrder) (d : List (String × Nat)) (a b : Nat),
    (l.foldl (deliveryStep inv) (d, a, b)).2.1 =
      a + (l.map (fun r => min r.amount (dictGet inv r.filename))).sum ∧
    (l.foldl (deliveryStep inv) (d, a, b)).2.2 =
      b + (l.map (fun r => r.amount)).sum := by
  intro l
  induction l with
  | nil => intro d a b; simp
  | cons p rest ih =>
      intro d a b
      simpa [deliveryStep] using
        ⟨(ih _ _ _).1.trans (by ring_nf),
         (ih _ _ _).2.trans (by ring_nf)⟩

theorem delivery_fold_dict_stable (inv : List (String × Nat)) :
    ∀ (l : List PlantOrder) (d : List (String × Nat)) (a b : Nat) (k : String),
    k ∉ l.map (fun r => r.filename) →
    dictGet (l.foldl (deliveryStep inv) (d, a, b)).1 k = dictGet d k := by
  intro l
  induction l with
  | nil => intro d a b k _; rfl
  | cons p rest ih =>
      intro d a b k hk
      simp only [List.map_cons, List.mem_cons, not_or] at hk
      rw [List.foldl_cons, show deliveryStep inv (d, a, b) p =
        (dictSet d p.filename (min p.amount (dictGet inv p.filename)),
         a + min p.amount (dictGet inv p.filename), b + p.amount) from rfl]
      rw [ih _ _ _ _ hk.2, dictGet_dictSet_ne _ _ _ _ hk.1]

theorem delivery_fold_dict_mem (inv : List (String × Nat)) :
    ∀ (l : List PlantOrder) (d : List (String × Nat)) (a b : Nat) (r : PlantOrder),
    r ∈ l → (l.map (fun x => x.filename)).Nodup →
    dictGet (l.foldl (deliveryStep inv) (d, a, b)).1 r.filename =
      min r.amount (dictGet inv r.filename) := by
  intro l
  induction l with
  | nil => intro d a b r hr; exact absurd hr (List.not_mem_nil r)
  | cons p rest ih =>
      intro d a b r hr hnd
      simp only [List.map_cons, List.nodup_cons] at hnd
      rcases List.mem_cons.mp hr with h | h
      · subst h
        rw [List.foldl_cons, show deliveryStep inv (d, a, b) r =
          (dictSet d r.filename (min r.amount (dictGet inv r.filename)),
           a + min r.amount (dictGet inv r.filename), b + r.amount) from rfl]
        rw [delivery_fold_dict_stable inv rest _ _ _ _ hnd.1,
            dictGet_dictSet_self]
      · exact ih _ _ _ _ h hnd.2

/-- Claim C1: for every order and player inventory, the fulfillment
computation sets, for each plant line `r`, the deliverable amount at
`r.filename` to `min(r.amount, inventory.get(r.filename, 0))`; the
totals are the sums of deliverable and requested amounts;
`can_deliver` holds iff the deliverable total is positive;
`is_full_delivery` holds iff the two totals coincide; and the score
preview is `total_deliverable * points_per_plant`, plus
`full_order_bonus` exactly when the delivery is full.  (Plant lines are
keyed by filename, so the order is assumed to list distinct
filenames.) -/
theorem calculate_delivery_correct (order : Order) (inv : List (String × Nat))
    (ppp bonus : ℤ)
    (hnd : (order.plants.map (fun r => r.filename)).Nodup) :
    (∀ r ∈ order.plants,
      dictGet (calculate_delivery order inv ppp bonus).deliverable_amounts r.filename =
        min r.amount (dictGet inv r.filename)) ∧
    (calculate_delivery order inv ppp bonus).total_deliverable =
      (order.plants.map (fun r => min r.amount (dictGet inv r.filename))).sum ∧
    (calculate_delivery order inv ppp bonus).total_requested =
      (order.plants.map (fun r => r.amount)).sum ∧
    ((calculate_delivery order inv ppp bonus).can_deliver = true ↔
      0 < (calculate_delivery order inv ppp bonus).total_deliverable) ∧
    ((calculate_delivery order inv ppp bonus).is_full_delivery = true ↔
      (calculate_delivery order inv ppp bonus).total_deliverable =
        (calculate_delivery order inv ppp bonus).total_requested) ∧
    (calculate_delivery order inv ppp bonus).points_preview =
      ((calculate_delivery order inv ppp bonus).total_deliverable : ℤ) * ppp +
        (if (calculate_delivery order inv ppp bonus).is_full_delivery then bonus else 0) := by
  have htot := delivery_fold_totals inv order.plants [] 0 0
  refine ⟨?_, ?_, ?_, ?_, ?_, ?_⟩
  · intro r hr
    exact delivery_fold_dict_mem inv order.plants [] 0 0 r hr hnd
  · simpa [calculate_delivery] using htot.1
  · simpa [calculate_delivery] using htot.2
  · simp [calculate_delivery]
  · simp [calculate_delivery]
  · simp only [calculate_delivery, decide_eq_true_eq]
    split_ifs with h
    · ring
    · ring

/-- Witness for C1 at Scenario D: order requesting two apples and one
basil against an inventory carrying one of each. -/
theorem calculate_delivery_correct_witness :
    (([⟨"apple.png", "omena", "apple", 2⟩, ⟨"basil.png", "basilika", "basil", 1⟩] :
        List PlantOrder).map (fun r => r.filename)).Nodup ∧
    (calculate_delivery
      { order_id := "o1", customer_location := "Torikahvila", customer_email := "",
        plants := [⟨"apple.png", "omena", "apple", 2⟩, ⟨"basil.png", "basilika", "basil", 1⟩],
        state := OrderState.ACCEPTED, send_time := 6, countdown_to_visible := -1,
        countdown_to_available := -1, generated_text := "", rolled_send_time := 0 }
      [("apple.png", 1), ("basil.png", 1)] 10 20).total_deliverable =
      ([min 2 1, min 1 1] : List Nat).sum := by
  have h := calculate_delivery_correct
    { order_id := "o1", customer_location := "Torikahvila", customer_email := "",
      plants := [⟨"apple.png", "omena", "apple", 2⟩, ⟨"basil.png", "basilika", "basil", 1⟩],
      state := OrderState.ACCEPTED, send_time := 6, countdown_to_visible := -1,
      countdown_to_available := -1, generated_text := "", rolled_send_time := 0 }
    [("apple.png", 1), ("basil.png", 1)] 10 20 (by decide)
  refine ⟨by decide, h.2.1.trans ?_⟩
  decide

/-- Claim C10: `take_plant` on a missing plant key returns `false` and
leaves the inventory map untouched (no entry is created), while
`return_plant` treats the missing key as stock 0, so with a positive
`inventory_max` it creates an entry with count 1 and returns `true`. -/
theorem missing_key_take_return (st : GreenhouseState) (k : String)
    (hmiss : dictLookup st.inventory k = none) :
    (take_plant st k).1 = false ∧ (take_plant st k).2 = st ∧
    (0 < st.inventory_max →
      (return_plant st k).1 = true ∧
      dictLookup (return_plant st k).2.inventory k = some 1) := by
  have hget : dictGet st.inventory k = 0 := by simp [dictGet, hmiss]
  refine ⟨?_, ?_, ?_⟩
  · simp [take_plant, get_plant_count, hget]
  · simp [take_plant, get_plant_count, hget]
  · intro hpos
    constructor
    · simp [return_plant, hget, Nat.not_le.mpr hpos]
    · simp [return_plant, hget, Nat.not_le.mpr hpos, dictLookup_dictSet_self]

/-- Witness for C10: a greenhouse with no entry for the requested plant
and the default capacity 7. -/
theorem missing_key_take_return_witness :
    dictLookup mkGreenhouse.inventory "fern.png" = none ∧
    (take_plant mkGreenhouse "fern.png").1 = false ∧
    (0 < mkGreenhouse.inventory_max →
      (return_plant mkGreenhouse "fern.png").1 = true) := by
  have h := missing_key_take_return mkGreenhouse "fern.png" (by decide)
  exact ⟨by decide, h.1, fun hp => (h.2.2 hp).1⟩

theorem foldl_incr_get (sel : List String) :
    ∀ (inv : List (String × Nat)) (k : String), sel.Nodup →
    dictGet (sel.foldl (fun i p => dictSet i p (dictGet i p + 1)) inv) k =
      dictGet inv k + (if k ∈ sel then 1 else 0) := by
  induction sel with
  | nil => intro inv k _; simp
  | cons a rest ih =>
      intro inv k hnd
      rw [List.nodup_cons] at hnd
      rw [List.foldl_cons, ih _ _ hnd.2]
      by_cases hk : k = a
      · subst hk
        have hkrest : k ∉ rest := hnd.1
        simp [hkrest, dictGet_dictSet_self]
      · simp [dictGet_dictSet_ne _ _ _ _ hk, hk]

/-- Claim C3: a growth event increments by exactly 1 the stock of each
of the distinct plant types chosen by `random.sample` from the
below-capacity subset (the oracle's hypotheses are exactly the
`random.sample` contract on the growable list and the requested count
`min grow_amount (growable size)`), leaves every other stock unchanged,
and is a no-op when no plant type is below `inventory_max`. -/
theorem grow_plants_correct (st : GreenhouseState)
    (sample : List String → Nat → List String)
    (hnd : (sample (growablePlants st)
      (min st.grow_amount (growablePlants st).length)).Nodup)
    (hsub : ∀ p ∈ sample (growablePlants st)
      (min st.grow_amount (growablePlants st).length), p ∈ growablePlants st) :
    (growablePlants st = [] → grow_plants sample st = st) ∧
    (∀ p ∈ sample (growablePlants st)
        (min st.grow_amount (growablePlants st).length),
      dictGet (grow_plants sample st).inventory p = dictGet st.inventory p + 1) ∧
    (∀ p, p ∉ sample (growablePlants st)
        (min st.grow_amount (growablePlants st).length) →
      dictGet (grow_plants sample st).inventory p = dictGet st.inventory p) := by
  refine ⟨?_, ?_, ?_⟩
  · intro hempty
    simp [grow_plants, hempty]
  · intro p hp
    have hne : ¬ (growablePlants st).length = 0 := by
      intro h0
      rw [List.length_eq_zero] at h0
      rw [h0] at hsub
      exact absurd (hsub p (h0 ▸ hp)) (List.not_mem_nil p)
    simp only [grow_plants, if_neg hne]
    rw [foldl_incr_get _ _ _ hnd]
    simp [hp]
  · intro p hp
    by_cases hne : (growablePlants st).length = 0
    · simp [grow_plants, hne]
    · simp only [grow_plants, if_neg hne]
      rw [foldl_incr_get _ _ _ hnd]
      simp [hp]

/-- Witness for C3: capacity 7, stocks a=7 (full) and b=3 (growable);
the sampling oracle takes a prefix, here exactly the one growable
type. -/
theorem grow_plants_correct_witness :
    ((fun (l : List String) (n : Nat) => l.take n)
        (growablePlants { mkGreenhouse with
          inventory := [("a.png", 7), ("b.png", 3)],
          all_plants := ["a.png", "b.png"] })
        (min ({ mkGreenhouse with
          inventory := [("a.png", 7), ("b.png", 3)],
          all_plants := ["a.png", "b.png"] } : GreenhouseState).grow_amount
          (growablePlants { mkGreenhouse with
            inventory := [("a.png", 7), ("b.png", 3)],
            all_plants := ["a.png", "b.png"] }).length)).Nodup ∧
    dictGet (grow_plants (fun l n => l.take n)
      { mkGreenhouse with
        inventory := [("a.png", 7), ("b.png", 3)],
        all_plants := ["a.png", "b.png"] }).inventory "b.png" = 4 := by
  have h := grow_plants_correct
    { mkGreenhouse with
      inventory := [("a.png", 7), ("b.png", 3)],
      all_plants := ["a.png", "b.png"] }
    (fun l n => l.take n) (by decide) (by decide)
  refine ⟨by decide, ?_⟩
  have hb := h.2.1 "b.png" (by decide)
  simpa using hb

/-- The greenhouse invariant carried through the session: every stock is
within capacity and the plant-type list is duplicate-free (true of a
directory listing). -/
def GhInv (st : GreenhouseState) : Prop :=
  (∀ k, dictGet st.inventory k ≤ st.inventory_max) ∧ st.all_plants.Nodup

theorem growablePlants_nodup (st : GreenhouseState)
    (h : st.all_plants.Nodup) : (growablePlants st).Nodup :=
  h.filter _

theorem mem_growablePlants (st : GreenhouseState) (p : String)
    (hp : p ∈ growablePlants st) : dictGet st.inventory p < st.inventory_max := by
  have := List.of_mem_filter hp
  simpa using this

theorem grow_plants_preserves_inv (st : GreenhouseState)
    (sample : List String → Nat → List String)
    (hok : SampleOk sample) (hinv : GhInv st) :
    GhInv (grow_plants sample st) ∧
    (grow_plants sample st).inventory_max = st.inventory_max := by
  by_cases hgrow : (growablePlants st).length = 0
  · simp [grow_plants, hgrow, hinv]
  · have hsok := hok (growablePlants st)
      (min st.grow_amount (growablePlants st).length)
      (growablePlants_nodup st hinv.2)
    refine ⟨⟨?_, by simpa [grow_plants, hgrow] using hinv.2⟩,
      by simp [grow_plants, hgrow]⟩
    intro k
    simp only [grow_plants, if_neg hgrow]
    rw [foldl_incr_get _ _ _ hsok.1]
    by_cases hk : k ∈ sample (growablePlants st)
        (min st.grow_amount (growablePlants st).length)
    · have hlt := mem_growablePlants st k (hsok.2 k hk)
      simp only [if_pos hk]
      omega
    · simpa [hk] using hinv.1 k

theorem ghop_preserves_inv (st : GreenhouseState) (op : GhOp)
    (hok : GhOpOk op) (hinv : GhInv st) : GhInv (applyGhOp st op) ∧
    (applyGhOp st op).inventory_max = st.inventory_max := by
  cases op with
  | update dt sample roll =>
      by_cases hini : st.is_initialized = false
      · simp [applyGhOp, gh_update, hini, hinv]
      · simp only [applyGhOp, gh_update, if_neg hini]
        have hinv1 : GhInv { st with grow_timer := st.grow_timer + dt } := hinv
        by_cases hfire : ({ st with grow_timer := st.grow_timer + dt } :
            GreenhouseState).next_grow_time ≤
            ({ st with grow_timer := st.grow_timer + dt } :
            GreenhouseState).grow_timer
        · simp only [if_pos hfire]
          have h := grow_plants_preserves_inv
            { st with grow_timer := st.grow_timer + dt } sample hok hinv1
          exact ⟨⟨h.1.1, h.1.2⟩, h.2⟩
        · simpa [if_neg hfire, GhInv] using hinv1
  | take k =>
      by_cases hz : get_plant_count st k ≤ 0
      · simp [applyGhOp, take_plant, hz, hinv]
      · refine ⟨⟨?_, by simpa [applyGhOp, take_plant, hz] using hinv.2⟩,
          by simp [applyGhOp, take_plant, hz]⟩
        intro k'
        simp only [applyGhOp, take_plant, if_neg hz]
        by_cases hk : k' = k
        · subst hk
          rw [dictGet_dictSet_self]
          have := hinv.1 k'
          omega
        · rw [dictGet_dictSet_ne _ _ _ _ hk]
          exact hinv.1 k'
  | ret k =>
      by_cases hfull : st.inventory_max ≤ dictGet st.inventory k
      · simp [applyGhOp, return_plant, hfull, hinv]
      · refine ⟨⟨?_, by simpa [applyGhOp, return_plant, hfull] using hinv.2⟩,
          by simp [applyGhOp, return_plant, hfull]⟩
        intro k'
        simp only [applyGhOp, return_plant, if_neg hfull]
        by_cases hk : k' = k
        · subst hk
          rw [dictGet_dictSet_self]
          omega
        · rw [dictGet_dictSet_ne _ _ _ _ hk]
          exact hinv.1 k'

theorem foldl_dictSet_const_bound (v : Nat) (m : Nat) (hv : v ≤ m) :
    ∀ (plants : List String) (inv : List (String × Nat)),
    (∀ k, dictGet inv k ≤ m) →
    ∀ k, dictGet (plants.foldl (fun i p => dictSet i p v) inv) k ≤ m := by
  intro plants
  induction plants with
  | nil => intro inv h k; exact h k
  | cons p rest ih =>
      intro inv h k
      rw [List.foldl_cons]
      refine ih _ ?_ k
      intro k'
      by_cases hk : k' = p
      · subst hk; rw [dictGet_dictSet_self]; exact hv
      · rw [dictGet_dictSet_ne _ _ _ _ hk]; exact h k'

theorem ghops_preserve_inv (ops : List GhOp) :
    ∀ (st : GreenhouseState), (∀ op ∈ ops, GhOpOk op) → GhInv st →
    GhInv (applyGhOps ops st) ∧ (applyGhOps ops st).inventory_max = st.inventory_max := by
  induction ops with
  | nil => intro st _ hinv; exact ⟨hinv, rfl⟩
  | cons op rest ih =>
      intro st hok hinv
      have h1 := ghop_preserves_inv st op (hok op (List.mem_cons_self op rest)) hinv
      have h2 := ih (applyGhOp st op)
        (fun o ho => hok o (List.mem_cons_of_mem op ho)) h1.1
      exact ⟨h2.1, by rw [applyGhOps, List.foldl_cons, ← applyGhOps, h2.2, h1.2]⟩

/-- Claim C4 (amended): provided the configured `initial_amount` does
not exceed `inventory_max`, every stock count stays within
`[0, inventory_max]` after initialization and after every sequence of
update/growth ticks, `take_plant` and `return_plant` calls (growth
ticks carry a `random.sample`-honouring oracle; the asset plant list is
duplicate-free). -/
theorem stock_bounds (plants : List String) (roll : ℚ)
    (ia ga imax : Nat) (tmin tmax : ℚ) (ops : List GhOp)
    (hplants : plants.Nodup)
    (hia : ia ≤ imax)
    (hok : ∀ op ∈ ops, GhOpOk op) :
    ∀ k, 0 ≤ dictGet (applyGhOps ops (initGreenhouse plants roll
        (gh_set_config ia ga tmin tmax imax mkGreenhouse))).inventory k ∧
      dictGet (applyGhOps ops (initGreenhouse plants roll
        (gh_set_config ia ga tmin tmax imax mkGreenhouse))).inventory k ≤ imax := by
  have hinv0 : GhInv (initGreenhouse plants roll
      (gh_set_config ia ga tmin tmax imax mkGreenhouse)) := by
    constructor
    · intro k
      simp only [initGreenhouse, gh_set_config, mkGreenhouse]
      refine foldl_dictSet_const_bound ia imax hia _ _ ?_ k
      intro k'
      simp [dictGet, dictLookup]
    · simpa [initGreenhouse, gh_set_config, mkGreenhouse] using hplants
  have hmax : (initGreenhouse plants roll
      (gh_set_config ia ga tmin tmax imax mkGreenhouse)).inventory_max = imax := rfl
  have h := ghops_preserve_inv ops _ hok hinv0
  intro k
  exact ⟨Nat.zero_le _, le_of_le_of_eq (h.1.1 k) (h.2.trans hmax)⟩

/-- Witness for C4 at a concrete session: two plant types, defaults
`initial_amount = 1 ≤ inventory_max = 7`, one growth tick followed by a
take and a return. -/
theorem stock_bounds_witness :
    (["a.png", "b.png"] : List String).Nodup ∧ 1 ≤ 7 ∧
    (∀ op ∈ ([GhOp.update 40 (fun l n => l.take n) 35,
              GhOp.take "a.png", GhOp.ret "b.png"] : List GhOp), GhOpOk op) ∧
    dictGet (applyGhOps
      [GhOp.update 40 (fun l n => l.take n) 35, GhOp.take "a.png", GhOp.ret "b.png"]
      (initGreenhouse ["a.png", "b.png"] 35
        (gh_set_config 1 3 30 60 7 mkGreenhouse))).inventory "b.png" ≤ 7 := by
  have hok : ∀ op ∈ ([GhOp.update 40 (fun l n => l.take n) 35,
      GhOp.take "a.png", GhOp.ret "b.png"] : List GhOp), GhOpOk op := by
    intro op hop
    rcases List.mem_cons.mp hop with h | hop
    · subst h
      intro l n hl
      exact ⟨hl.sublist (List.take_sublist n l), fun p hp => (List.take_subset n l) hp⟩
    · rcases List.mem_cons.mp hop with h | hop
      · subst h; trivial
      · rcases List.mem_cons.mp hop with h | hop
        · subst h; trivial
        · exact absurd hop (List.not_mem_nil op)
  have h := stock_bounds ["a.png", "b.png"] 35 1 3 7 30 60
    [GhOp.update 40 (fun l n => l.take n) 35, GhOp.take "a.png", GhOp.ret "b.png"]
    (by decide) (by decide) hok
  exact ⟨by decide, by decide, hok, (h "b.png").2⟩

/-- Counterexample for C4 as stated: with `initial_amount = 10` and
`inventory_max = 7` the initialization itself leaves a stock of 10,
violating the claimed upper bound. -/
theorem stock_bounds_counterexample :
    dictGet (initGreenhouse ["a.png"] 35
      (gh_set_config 10 3 30 60 7 mkGreenhouse)).inventory "a.png" = 10 ∧
    (initGreenhouse ["a.png"] 35
      (gh_set_config 10 3 30 60 7 mkGreenhouse)).inventory_max = 7 ∧ ¬ 10 ≤ 7 := by
  refine ⟨?_, rfl, by decide⟩
  rfl

/-- Forget the order collections and the batch timer, keeping the
scoring / completion / configuration fields; equality of `admin` views
says a step changed none of those fields. -/
def admin (st : OMState) : OMState :=
  { st with available_orders := [], incoming_orders := [], visible_orders := [],
            accepted_orders := [], completed_orders := [],
            countdown_to_incoming := 0 }

theorem admin_select_next_batch (roll : Order → ℚ) (st : OMState) :
    admin (select_next_batch roll st) = admin st := by
  unfold select_next_batch
  split_ifs <;> rfl

theorem admin_processBatch (dt : ℚ) (roll : Order → ℚ) (st : OMState) :
    admin (processBatch dt roll st) = admin st := by
  unfold processBatch
  split_ifs with h1 h2
  · exact (admin_select_next_batch roll _).trans (by rfl)
  · rfl
  · rfl

theorem admin_foldl_mtv (l : List Order) :
    ∀ st : OMState, admin (l.foldl move_to_visible st) = admin st := by
  induction l with
  | nil => intro st; rfl
  | cons o rest ih => intro st; rw [List.foldl_cons, ih]; rfl

theorem admin_foldl_mta (l : List Order) :
    ∀ st : OMState, admin (l.foldl move_to_available st) = admin st := by
  induction l with
  | nil => intro st; rfl
  | cons o rest ih => intro st; rw [List.foldl_cons, ih]; rfl

theorem admin_processIncoming (dt : ℚ) (st : OMState) :
    admin (processIncoming dt st) = admin st := by
  unfold processIncoming
  rw [admin_foldl_mtv]
  rfl

theorem admin_processVisible (dt : ℚ) (st : OMState) :
    admin (processVisible dt st) = admin st := by
  unfold processVisible
  rw [admin_foldl_mta]
  rfl

theorem check_completion_of_completed (st : OMState)
    (h : st.map_completed = true) : check_completion st = (true, st) := by
  simp [check_completion, h]

theorem check_completion_fields (st : OMState) :
    (check_completion st).2.orders_completed_count = st.orders_completed_count ∧
    (check_completion st).2.plants_delivered_count = st.plants_delivered_count ∧
    (check_completion st).2.total_score = st.total_score ∧
    (check_completion st).2.orders_required = st.orders_required ∧
    (check_completion st).2.plants_required = st.plants_required ∧
    (check_completion st).2.score_required = st.score_required ∧
    (check_completion st).2.points_per_plant = st.points_per_plant ∧
    (check_completion st).2.full_order_bonus = st.full_order_bonus := by
  unfold check_completion
  split_ifs <;> simp

theorem check_completion_sticky (st : OMState)
    (h : st.map_completed = true) : (check_completion st).2.map_completed = true := by
  rw [check_completion_of_completed st h]
  exact h

/-- The truth value `check_completion` computes, as a disjunction of the
already-completed flag and the three configured-threshold tests. -/
theorem check_completion_eval (st : OMState) :
    ((check_completion st).1 = true ↔
      (st.map_completed = true ∨
       (0 < st.orders_required ∧ st.orders_required ≤ st.orders_completed_count) ∨
       (0 < st.plants_required ∧ st.plants_required ≤ st.plants_delivered_count) ∨
       (0 < st.score_required ∧ st.score_required ≤ st.total_score))) := by
  unfold check_completion
  by_cases h : st.map_completed
  · simp [h]
  · simp only [if_neg h]
    split_ifs with h1 h2 h3 <;> simp_all

theorem applyGameOp_admin_mono (st : OMState) (op : GameOp)
    (hp : 0 ≤ st.points_per_plant) (hb : 0 ≤ st.full_order_bonus) :
    st.orders_completed_count ≤ (applyGameOp st op).orders_completed_count ∧
    st.plants_delivered_count ≤ (applyGameOp st op).plants_delivered_count ∧
    st.total_score ≤ (applyGameOp st op).total_score ∧
    (st.map_completed = true → (applyGameOp st op).map_completed = true) ∧
    (applyGameOp st op).points_per_plant = st.points_per_plant ∧
    (applyGameOp st op).full_order_bonus = st.full_order_bonus ∧
    (applyGameOp st op).orders_required = st.orders_required ∧
    (applyGameOp st op).plants_required = st.plants_required ∧
    (applyGameOp st op).score_required = st.score_required := by
  cases op with
  | tick dt roll =>
      have h3 : admin (processVisible dt (processIncoming dt (processBatch dt roll st))) =
          admin st := by
        rw [admin_processVisible, admin_processIncoming, admin_processBatch]
      have hf := check_completion_fields
        (processVisible dt (processIncoming dt (processBatch dt roll st)))
      simp only [admin, OMState.mk.injEq, and_true, true_and] at h3
      obtain ⟨h_bs, h_bd, h_at, h_aol, hocc, hpdc, hts, hor, hpr, hsr, hppp, hfob, hmc⟩ := h3
      refine ⟨?_, ?_, ?_, ?_, ?_, ?_, ?_, ?_, ?_⟩
      · exact le_of_eq (hocc.symm.trans hf.1.symm)
      · exact le_of_eq (hpdc.symm.trans hf.2.1.symm)
      · exact le_of_eq (hts.symm.trans hf.2.2.1.symm)
      · intro h
        exact check_completion_sticky _ (hmc.trans h)
      · exact hf.2.2.2.2.2.2.1.trans hppp
      · exact hf.2.2.2.2.2.2.2.trans hfob
      · exact hf.2.2.2.1.trans hor
      · exact hf.2.2.2.2.1.trans hpr
      · exact hf.2.2.2.2.2.1.trans hsr
  | accept o =>
      exact ⟨le_refl _, le_refl _, le_refl _, fun h => h, rfl, rfl, rfl, rfl, rfl⟩
  | complete o n b =>
      refine ⟨?_, ?_, ?_, fun h => h, rfl, rfl, rfl, rfl, rfl⟩
      · exact Nat.le_succ _
      · exact Nat.le_add_right _ _
      · have hearned : (0 : ℤ) ≤ (n : ℤ) * st.points_per_plant +
            (if b then st.full_order_bonus else 0) := by
          have h1 : (0 : ℤ) ≤ (n : ℤ) * st.points_per_plant :=
            mul_nonneg (Int.ofNat_nonneg n) hp
          have h2 : (0 : ℤ) ≤ (if b then st.full_order_bonus else 0) := by
            by_cases hb' : b <;> simp [hb', hb]
          exact add_nonneg h1 h2
        simp only [applyGameOp, complete_order]
        omega
  | check =>
      have hf := check_completion_fields st
      refine ⟨le_of_eq hf.1.symm, le_of_eq hf.2.1.symm, le_of_eq hf.2.2.1.symm,
        fun h => check_completion_sticky st h,
        hf.2.2.2.2.2.2.1, hf.2.2.2.2.2.2.2, hf.2.2.2.1, hf.2.2.2.2.1, hf.2.2.2.2.2.1⟩

/-- Claim C7: across every sequence of session operations the counters
`orders_completed_count`, `plants_delivered_count` and `total_score`
never decrease, and `map_completed` never reverts to false (scoring
configuration is nonnegative, as points configs are). -/
theorem counters_monotone (ops : List GameOp) :
    ∀ st : OMState, 0 ≤ st.points_per_plant → 0 ≤ st.full_order_bonus →
    st.orders_completed_count ≤ (applyGameOps ops st).orders_completed_count ∧
    st.plants_delivered_count ≤ (applyGameOps ops st).plants_delivered_count ∧
    st.total_score ≤ (applyGameOps ops st).total_score ∧
    (st.map_completed = true → (applyGameOps ops st).map_completed = true) := by
  induction ops with
  | nil => intro st _ _; exact ⟨le_refl _, le_refl _, le_refl _, fun h => h⟩
  | cons op rest ih =>
      intro st hp hb
      have h1 := applyGameOp_admin_mono st op hp hb
      have h2 := ih (applyGameOp st op)
        (le_of_le_of_eq hp h1.2.2.2.2.1.symm)
        (le_of_le_of_eq hb h1.2.2.2.2.2.1.symm)
      have heq : applyGameOps (op :: rest) st = applyGameOps rest (applyGameOp st op) := rfl
      rw [heq]
      exact ⟨h1.1.trans h2.1, h1.2.1.trans h2.2.1, h1.2.2.1.trans h2.2.2.1,
        fun h => h2.2.2.2 (h1.2.2.2.1 h)⟩

theorem check_fst_eq_snd_completed (st : OMState) :
    (check_completion st).1 = (check_completion st).2.map_completed := by
  unfold check_completion
  split_ifs with h <;> simp [h]

theorem applyGameOp_sticky (st : OMState) (op : GameOp)
    (h : st.map_completed = true) : (applyGameOp st op).map_completed = true := by
  cases op with
  | tick dt roll =>
      have h3 : admin (processVisible dt (processIncoming dt (processBatch dt roll st))) =
          admin st := by
        rw [admin_processVisible, admin_processIncoming, admin_processBatch]
      have hmc := congrArg OMState.map_completed h3
      exact check_completion_sticky _ (hmc.trans h)
  | accept o => exact h
  | complete o n b => exact h
  | check => exact check_completion_sticky st h

theorem applyGameOps_sticky (ops : List GameOp) :
    ∀ st : OMState, st.map_completed = true →
    (applyGameOps ops st).map_completed = true := by
  induction ops with
  | nil => intro st h; exact h
  | cons op rest ih =>
      intro st h
      exact ih (applyGameOp st op) (applyGameOp_sticky st op h)

/-- Claim C2: `check_completion` returns true exactly when the map was
already completed or some strictly-positive configured threshold has
been reached by its counter (logical OR of the three), and once it has
returned true it keeps returning true after any further sequence of
session operations. -/
theorem check_completion_spec (st : OMState) :
    ((check_completion st).1 = true ↔
      (st.map_completed = true ∨
       (0 < st.orders_required ∧ st.orders_required ≤ st.orders_completed_count) ∨
       (0 < st.plants_required ∧ st.plants_required ≤ st.plants_delivered_count) ∨
       (0 < st.score_required ∧ st.score_required ≤ st.total_score))) ∧
    ((check_completion st).1 = true → ∀ ops : List GameOp,
      (check_completion (applyGameOps ops (check_completion st).2)).1 = true) := by
  refine ⟨check_completion_eval st, ?_⟩
  intro h ops
  have h2 : (check_completion st).2.map_completed = true :=
    (check_fst_eq_snd_completed st).symm.trans h
  have h3 := applyGameOps_sticky ops (check_completion st).2 h2
  rw [check_completion_of_completed _ h3]

/-- A base manager state used by concrete witnesses: empty collections,
the source's default configuration. -/
def baseOM : OMState :=
  { available_orders := [], incoming_orders := [], visible_orders := [],
    accepted_orders := [], completed_orders := [], countdown_to_incoming := 0,
    batch_size := 3, batch_delay := 10, accept_time := 15,
    active_order_limit := 6, orders_completed_count := 0,
    plants_delivered_count := 0, total_score := 0, orders_required := 10,
    plants_required := 0, score_required := 0, points_per_plant := 10,
    full_order_bonus := 20, map_completed := false }

/-- A sample accepted order used by concrete witnesses. -/
def orderA : Order :=
  { order_id := "a1", customer_location := "Torikahvila", customer_email := "",
    plants := [⟨"apple.png", "omena", "apple", 2⟩],
    state := OrderState.ACCEPTED, send_time := 6, countdown_to_visible := -1,
    countdown_to_available := -1, generated_text := "", rolled_send_time := 0 }

/-- Witness for C2 at Scenario F: `orders_required = 10` and ten
completed orders; `check_completion` answers true and keeps answering
true after a further check. -/
theorem check_completion_spec_witness :
    (check_completion { baseOM with orders_completed_count := 10 }).1 = true ∧
    (check_completion (applyGameOps [GameOp.check]
      (check_completion { baseOM with orders_completed_count := 10 }).2)).1 = true := by
  refine ⟨by decide, ?_⟩
  exact (check_completion_spec { baseOM with orders_completed_count := 10 }).2
    (by decide) [GameOp.check]

/-- Witness for C7: nonnegative default scoring config, one completion
operation; the score does not decrease. -/
theorem counters_monotone_witness :
    (0 : ℤ) ≤ baseOM.points_per_plant ∧ (0 : ℤ) ≤ baseOM.full_order_bonus ∧
    baseOM.total_score ≤
      (applyGameOps [GameOp.complete orderA 2 true] baseOM).total_score := by
  refine ⟨by decide, by decide, ?_⟩
  exact (counters_monotone [GameOp.complete orderA 2 true] baseOM
    (by decide) (by decide)).2.2.1

/-- Counterexample for C5 as stated: calling `accept_order` on an order
that is already ACCEPTED (hence not VISIBLE) signals nothing and the
ACCEPTED collection gains a member (a duplicate of the order). -/
theorem accept_no_guard_counterexample :
    orderA.state ≠ OrderState.VISIBLE ∧
    ({ baseOM with accepted_orders := [orderA] } : OMState).accepted_orders.length = 1 ∧
    (accept_order { baseOM with accepted_orders := [orderA] } orderA).accepted_orders.length = 2 := by
  refine ⟨by decide, rfl, ?_⟩
  decide

/-- Claim C5 (amended): `accept_order` and `complete_order` perform no
state check and signal no failure: for every order, whatever its state,
`accept_order` removes it from the visible list if present and appends
an ACCEPTED copy to `accepted_orders`; `complete_order` removes it from
the accepted list if present, appends a COMPLETED copy to
`completed_orders` and bumps the completion counter — so a call on an
order in the wrong state silently mutates the collections instead of
returning an InvalidTransition failure. -/
theorem accept_complete_unconditional (st : OMState) (o : Order)
    (n : Nat) (b : Bool) :
    (accept_order st o).accepted_orders = st.accepted_orders ++
      [{ o with state := OrderState.ACCEPTED,
                countdown_to_visible := -1, countdown_to_available := -1 }] ∧
    (accept_order st o).visible_orders = st.visible_orders.erase o ∧
    (accept_order st o).available_orders = st.available_orders ∧
    (accept_order st o).incoming_orders = st.incoming_orders ∧
    (accept_order st o).completed_orders = st.completed_orders ∧
    (complete_order st o n b).completed_orders = st.completed_orders ++
      [{ o with state := OrderState.COMPLETED }] ∧
    (complete_order st o n b).accepted_orders = st.accepted_orders.erase o ∧
    (complete_order st o n b).orders_completed_count = st.orders_completed_count + 1 := by
  refine ⟨rfl, ?_, rfl, rfl, rfl, rfl, ?_, rfl⟩
  · by_cases h : o ∈ st.visible_orders
    · simp [accept_order, h]
    · simp [accept_order, h, List.erase_of_not_mem h]
  · by_cases h : o ∈ st.accepted_orders
    · simp [complete_order, h]
    · simp [complete_order, h, List.erase_of_not_mem h]

/-- Counterexample for C9 as stated: batch release fires (no incoming,
no visible, timer crossing ≤ 0) while the accepted count is at the
limit, but the available pool is empty — the source returns before the
throttle check, so the batch timer is left at its decremented value
instead of being reset to 1.0. -/
theorem batch_throttle_counterexample :
    (({ baseOM with
        active_order_limit := 1, accepted_orders := [orderA],
        countdown_to_incoming := 1/2 } : OMState).available_orders = [] ∧
     ({ baseOM with
        active_order_limit := 1, accepted_orders := [orderA],
        countdown_to_incoming := 1/2 } : OMState).active_order_limit ≤
       ({ baseOM with
          active_order_limit := 1, accepted_orders := [orderA],
          countdown_to_incoming := 1/2 } : OMState).accepted_orders.length) ∧
    (processBatch 1 (fun _ => 0)
      { baseOM with
        active_order_limit := 1, accepted_orders := [orderA],
        countdown_to_incoming := 1/2 }).countdown_to_incoming = -(1/2) ∧
    ¬ ((-(1/2) : ℚ) = 1) := by
  refine ⟨⟨rfl, by decide⟩, ?_, by norm_num⟩
  norm_num [processBatch, select_next_batch, baseOM, orderA]

/-- Claim C9 (amended): when batch release fires (timer crossed ≤ 0
with no INCOMING and no VISIBLE orders) while the accepted count is at
or above `active_order_limit` and the available pool is non-empty, no
order leaves the pool and the batch timer is reset to the short retry
value 1.0 (with an empty pool the source instead returns before the
throttle check, leaving the timer at its decremented value). -/
theorem select_next_batch_throttled (roll : Order → ℚ) (st : OMState)
    (hAvail : st.available_orders ≠ [])
    (hLim : st.active_order_limit ≤ st.accepted_orders.length) :
    select_next_batch roll st = { st with countdown_to_incoming := 1 } := by
  unfold select_next_batch
  rw [if_neg hAvail, if_pos hLim]

theorem batch_throttle (st : OMState) (dt : ℚ) (roll : Order → ℚ)
    (hInc : st.incoming_orders = []) (hVis : st.visible_orders = [])
    (hTimer : st.countdown_to_incoming - dt ≤ 0)
    (hLim : st.active_order_limit ≤ st.accepted_orders.length)
    (hAvail : st.available_orders ≠ []) :
    (processBatch dt roll st).available_orders = st.available_orders ∧
    (processBatch dt roll st).incoming_orders = st.incoming_orders ∧
    (processBatch dt roll st).countdown_to_incoming = 1 := by
  unfold processBatch
  rw [if_pos ⟨hInc, hVis⟩, if_pos hTimer,
    select_next_batch_throttled roll
      { st with countdown_to_incoming := st.countdown_to_incoming - dt } hAvail hLim]
  exact ⟨rfl, rfl, rfl⟩

/-- A sample available-pool order used by concrete witnesses. -/
def orderB : Order :=
  { orderA with order_id := "a2", state := OrderState.AVAILABLE }

/-- Witness for C9 (amended): one available order, limit already
reached; the timer is reset to 1.0 and the pool is untouched. -/
theorem batch_throttle_witness :
    (({ baseOM with
        active_order_limit := 1, accepted_orders := [orderA],
        available_orders := [orderB],
        countdown_to_incoming := 1/2 } : OMState).available_orders ≠ [] ∧
     (1 : Nat) ≤ 1 ∧ ((1 : ℚ)/2 - 1 ≤ 0)) ∧
    (processBatch 1 (fun _ => 0)
      { baseOM with
        active_order_limit := 1, accepted_orders := [orderA],
        available_orders := [orderB],
        countdown_to_incoming := 1/2 }).countdown_to_incoming = 1 := by
  refine ⟨⟨by decide, by decide, by norm_num⟩, ?_⟩
  exact (batch_throttle _ 1 (fun _ => 0) rfl rfl (by norm_num [baseOM])
    (by decide) (by decide)).2.2

/-- The mutation `move_to_visible` applies to an order entering the
VISIBLE state: sentinel −1 on the spent countdown and the full
`accept_time` on the accept window, whatever the overshoot was. -/
def vizMark (t : ℚ) (o : Order) : Order :=
  { o with state := OrderState.VISIBLE, countdown_to_visible := -1,
           countdown_to_available := t }

/-- The mutation `move_to_available` applies to an expiring order. -/
def availMark (o : Order) : Order :=
  { o with state := OrderState.AVAILABLE, countdown_to_visible := -1,
           countdown_to_available := -1 }

theorem foldl_mtv_spec (l : List Order) :
    ∀ st : OMState, st.incoming_orders.Nodup →
    (∀ o ∈ l, o ∈ st.incoming_orders) → l.Nodup →
    (l.foldl move_to_visible st).incoming_orders =
      st.incoming_orders.filter (fun o => decide (o ∉ l)) ∧
    (l.foldl move_to_visible st).visible_orders =
      st.visible_orders ++ l.map (vizMark st.accept_time) := by
  induction l with
  | nil => intro st _ _ _; simp
  | cons a rest ih =>
      intro st hnd hmem hlnd
      rw [List.nodup_cons] at hlnd
      have ha : a ∈ st.incoming_orders := hmem a (List.mem_cons_self a rest)
      have hinc : (move_to_visible st a).incoming_orders =
          st.incoming_orders.erase a := by
        simp [move_to_visible, ha]
      have hvis : (move_to_visible st a).visible_orders =
          st.visible_orders ++ [vizMark st.accept_time a] := rfl
      have hat : (move_to_visible st a).accept_time = st.accept_time := rfl
      have hmem' : ∀ o ∈ rest, o ∈ (move_to_visible st a).incoming_orders := by
        intro o ho
        rw [hinc]
        have hne : o ≠ a := fun h => hlnd.1 (h ▸ ho)
        exact (List.mem_erase_of_ne hne).mpr (hmem o (List.mem_cons_of_mem a ho))
      have hnd' : (move_to_visible st a).incoming_orders.Nodup := by
        rw [hinc]; exact hnd.erase a
      have hIH := ih (move_to_visible st a) hnd' hmem' hlnd.2
      rw [List.foldl_cons]
      constructor
      · rw [hIH.1, hinc, hnd.erase_eq_filter a, List.filter_filter]
        apply List.filter_congr
        intro o _
        by_cases h : o = a <;> simp [h, List.mem_cons]
      · rw [hIH.2, hvis, hat, List.append_assoc]
        rfl

theorem foldl_mta_spec (l : List Order) :
    ∀ st : OMState, st.visible_orders.Nodup →
    (∀ o ∈ l, o ∈ st.visible_orders) → l.Nodup →
    (l.foldl move_to_available st).visible_orders =
      st.visible_orders.filter (fun o => decide (o ∉ l)) ∧
    (l.foldl move_to_available st).available_orders =
      st.available_orders ++ l.map availMark := by
  induction l with
  | nil => intro st _ _ _; simp
  | cons a rest ih =>
      intro st hnd hmem hlnd
      rw [List.nodup_cons] at hlnd
      have ha : a ∈ st.visible_orders := hmem a (List.mem_cons_self a rest)
      have hvis : (move_to_available st a).visible_orders =
          st.visible_orders.erase a := by
        simp [move_to_available, ha]
      have hav : (move_to_available st a).available_orders =
          st.available_orders ++ [availMark a] := rfl
      have hmem' : ∀ o ∈ rest, o ∈ (move_to_available st a).visible_orders := by
        intro o ho
        rw [hvis]
        have hne : o ≠ a := fun h => hlnd.1 (h ▸ ho)
        exact (List.mem_erase_of_ne hne).mpr (hmem o (List.mem_cons_of_mem a ho))
      have hnd' : (move_to_available st a).visible_orders.Nodup := by
        rw [hvis]; exact hnd.erase a
      have hIH := ih (move_to_available st a) hnd' hmem' hlnd.2
      rw [List.foldl_cons]
      constructor
      · rw [hIH.1, hvis, hnd.erase_eq_filter a, List.filter_filter]
        apply List.filter_congr
        intro o _
        by_cases h : o = a <;> simp [h, List.mem_cons]
      · rw [hIH.2, hav, List.append_assoc]
        rfl

theorem decVisible_injective (dt : ℚ) : Function.Injective
    (fun o : Order => { o with countdown_to_visible := o.countdown_to_visible - dt }) := by
  intro a b h
  cases a; cases b
  simp only [Order.mk.injEq] at h ⊢
  obtain ⟨h1, h2, h3, h4, h5, h6, h7, h8, h9, h10⟩ := h
  exact ⟨h1, h2, h3, h4, h5, h6, sub_left_inj.mp h7, h8, h9, h10⟩

theorem decAvailable_injective (dt : ℚ) : Function.Injective
    (fun o : Order => { o with countdown_to_available := o.countdown_to_available - dt }) := by
  intro a b h
  cases a; cases b
  simp only [Order.mk.injEq] at h ⊢
  obtain ⟨h1, h2, h3, h4, h5, h6, h7, h8, h9, h10⟩ := h
  exact ⟨h1, h2, h3, h4, h5, h6, h7, sub_left_inj.mp h8, h9, h10⟩


/-- The per-tick decrement `OrderSystem.process` applies to an incoming
order's visibility countdown. -/
def decVis (dt : ℚ) (o : Order) : Order :=
  { o with countdown_to_visible := o.countdown_to_visible - dt }

/-- The per-tick decrement `OrderSystem.process` applies to a visible
order's accept-window countdown. -/
def decAvail (dt : ℚ) (o : Order) : Order :=
  { o with countdown_to_available := o.countdown_to_available - dt }

theorem decVis_injective (dt : ℚ) : Function.Injective (decVis dt) :=
  decVisible_injective dt

theorem decAvail_injective (dt : ℚ) : Function.Injective (decAvail dt) :=
  decAvailable_injective dt

theorem processIncoming_spec (dt : ℚ) (st : OMState)
    (hnd : st.incoming_orders.Nodup) :
    (processIncoming dt st).incoming_orders =
      (st.incoming_orders.map (decVis dt)).filter
        (fun o => !decide (o.countdown_to_visible ≤ 0)) ∧
    (processIncoming dt st).visible_orders =
      st.visible_orders ++
        ((st.incoming_orders.map (decVis dt)).filter
          (fun o => decide (o.countdown_to_visible ≤ 0))).map (vizMark st.accept_time) := by
  have hdec : (st.incoming_orders.map (decVis dt)).Nodup :=
    hnd.map (decVis_injective dt)
  have hspec := foldl_mtv_spec
    ((st.incoming_orders.map (decVis dt)).filter
      (fun o => decide (o.countdown_to_visible ≤ 0)))
    { st with incoming_orders := st.incoming_orders.map (decVis dt) }
    hdec (fun o ho => List.mem_of_mem_filter ho) (hdec.filter _)
  constructor
  · rw [show (processIncoming dt st).incoming_orders =
      (List.foldl move_to_visible
        { st with incoming_orders := st.incoming_orders.map (decVis dt) }
        ((st.incoming_orders.map (decVis dt)).filter
          (fun o => decide (o.countdown_to_visible ≤ 0)))).incoming_orders from rfl]
    rw [hspec.1]
    apply List.filter_congr
    intro o ho
    by_cases h : o.countdown_to_visible ≤ 0 <;> simp [List.mem_filter, h, ho]
  · rw [show (processIncoming dt st).visible_orders =
      (List.foldl move_to_visible
        { st with incoming_orders := st.incoming_orders.map (decVis dt) }
        ((st.incoming_orders.map (decVis dt)).filter
          (fun o => decide (o.countdown_to_visible ≤ 0)))).visible_orders from rfl]
    rw [hspec.2]

theorem processVisible_spec (dt : ℚ) (st : OMState)
    (hnd : st.visible_orders.Nodup) :
    (processVisible dt st).visible_orders =
      (st.visible_orders.map (decAvail dt)).filter
        (fun o => !decide (o.countdown_to_available ≤ 0)) ∧
    (processVisible dt st).available_orders =
      st.available_orders ++
        ((st.visible_orders.map (decAvail dt)).filter
          (fun o => decide (o.countdown_to_available ≤ 0))).map availMark := by
  have hdec : (st.visible_orders.map (decAvail dt)).Nodup :=
    hnd.map (decAvail_injective dt)
  have hspec := foldl_mta_spec
    ((st.visible_orders.map (decAvail dt)).filter
      (fun o => decide (o.countdown_to_available ≤ 0)))
    { st with visible_orders := st.visible_orders.map (decAvail dt) }
    hdec (fun o ho => List.mem_of_mem_filter ho) (hdec.filter _)
  constructor
  · rw [show (processVisible dt st).visible_orders =
      (List.foldl move_to_available
        { st with visible_orders := st.visible_orders.map (decAvail dt) }
        ((st.visible_orders.map (decAvail dt)).filter
          (fun o => decide (o.countdown_to_available ≤ 0)))).visible_orders from rfl]
    rw [hspec.1]
    apply List.filter_congr
    intro o ho
    by_cases h : o.countdown_to_available ≤ 0 <;> simp [List.mem_filter, h, ho]
  · rw [show (processVisible dt st).available_orders =
      (List.foldl move_to_available
        { st with visible_orders := st.visible_orders.map (decAvail dt) }
        ((st.visible_orders.map (decAvail dt)).filter
          (fun o => decide (o.countdown_to_available ≤ 0)))).available_orders from rfl]
    rw [hspec.2]

/-- Claim C8: on a tick, every INCOMING order's visibility countdown
and every VISIBLE order's accept countdown is decremented by `dt`; an
order whose decremented countdown crossed ≤ 0 transitions immediately,
and the overshoot is not carried over: a transitioning order gets
`countdown_to_available` set to the full configured `accept_time`
whatever the overshoot was (`vizMark` ignores the spent value) and the
spent countdown reset to the sentinel −1 (an expiring VISIBLE order
gets both sentinels −1).  The order lists carry field-wise-distinct
orders, as order ids are unique. -/
theorem tick_timers (st : OMState) (dt : ℚ)
    (hinc : st.incoming_orders.Nodup) (hvis : st.visible_orders.Nodup) :
    ((processIncoming dt st).incoming_orders =
      (st.incoming_orders.map (decVis dt)).filter
        (fun o => !decide (o.countdown_to_visible ≤ 0)) ∧
    (processIncoming dt st).visible_orders =
      st.visible_orders ++
        ((st.incoming_orders.map (decVis dt)).filter
          (fun o => decide (o.countdown_to_visible ≤ 0))).map (vizMark st.accept_time)) ∧
    ((processVisible dt st).visible_orders =
      (st.visible_orders.map (decAvail dt)).filter
        (fun o => !decide (o.countdown_to_available ≤ 0)) ∧
    (processVisible dt st).available_orders =
      st.available_orders ++
        ((st.visible_orders.map (decAvail dt)).filter
          (fun o => decide (o.countdown_to_available ≤ 0))).map availMark) :=
  ⟨processIncoming_spec dt st hinc, processVisible_spec dt st hvis⟩

/-- A sample incoming order with 2 seconds of visibility delay left. -/
def orderI : Order :=
  { orderA with
    order_id := "i1", state := OrderState.INCOMING,
    countdown_to_visible := 2 }

/-- Witness for C8: ticking 5 seconds past an incoming order with 2
seconds left (overshoot −3) makes it VISIBLE with the full 15-second
accept window and the sentinel −1, not 12. -/
theorem tick_timers_witness :
    (({ baseOM with incoming_orders := [orderI] } : OMState).incoming_orders.Nodup ∧
     ({ baseOM with incoming_orders := [orderI] } : OMState).visible_orders.Nodup) ∧
    (processIncoming 5 { baseOM with incoming_orders := [orderI] }).visible_orders =
      [{ orderI with
          state := OrderState.VISIBLE, countdown_to_visible := -1,
          countdown_to_available := 15 }] ∧
    (processIncoming 5 { baseOM with incoming_orders := [orderI] }).incoming_orders = [] := by
  have h := tick_timers { baseOM with incoming_orders := [orderI] } 5
    (by decide) (by decide)
  have hle : ((2 : ℚ) - 5 ≤ 0) := by norm_num
  have hcond : decide ((decVis 5 orderI).countdown_to_visible ≤ 0) = true :=
    decide_eq_true (by norm_num [decVis, orderI, orderA])
  have hfil1 : List.filter (fun o => decide (o.countdown_to_visible ≤ 0))
      [decVis 5 orderI] = [decVis 5 orderI] := by
    simp only [List.filter_cons, List.filter_nil, hcond, if_true]
  have hfil2 : List.filter (fun o => !decide (o.countdown_to_visible ≤ 0))
      [decVis 5 orderI] = [] := by
    simp [List.filter_cons, hcond]
  refine ⟨⟨by decide, by decide⟩, ?_, ?_⟩
  · rw [h.1.2]
    rw [show ({ baseOM with incoming_orders := [orderI] } : OMState).incoming_orders.map
        (decVis 5) = [decVis 5 orderI] from rfl]
    rw [hfil1]
    rfl
  · rw [h.1.1]
    rw [show ({ baseOM with incoming_orders := [orderI] } : OMState).incoming_orders.map
        (decVis 5) = [decVis 5 orderI] from rfl]
    rw [hfil2]

theorem selectUnique_spec : ∀ (avail : List Order) (need : Nat) (locs : List String),
    (∀ o ∈ selectUnique need locs avail, o ∈ avail) ∧
    (selectUnique need locs avail).length ≤ need ∧
    (∀ o ∈ selectUnique need locs avail, o.customer_location ∉ locs) ∧
    (selectUnique need locs avail).Nodup := by
  intro avail
  induction avail with
  | nil => intro need locs; simp [selectUnique]
  | cons a rest ih =>
      intro need locs
      by_cases h0 : need = 0
      · simp [selectUnique, h0]
      · by_cases hl : a.customer_location ∈ locs
        · have ihr := ih need locs
          simp only [selectUnique, if_neg h0, if_pos hl]
          exact ⟨fun o ho => List.mem_cons_of_mem a (ihr.1 o ho), ihr.2.1,
            ihr.2.2.1, ihr.2.2.2⟩
        · have ihr := ih (need - 1) (a.customer_location :: locs)
          simp only [selectUnique, if_neg h0, if_neg hl]
          refine ⟨?_, ?_, ?_, ?_⟩
          · intro o ho
            rcases List.mem_cons.mp ho with he | ho'
            · exact he ▸ List.mem_cons_self _ _
            · exact List.mem_cons_of_mem a (ihr.1 o ho')
          · have := ihr.2.1
            simp only [List.length_cons]
            omega
          · intro o ho
            rcases List.mem_cons.mp ho with he | ho'
            · exact he ▸ hl
            · exact fun hmem => ihr.2.2.1 o ho' (List.mem_cons_of_mem _ hmem)
          · rw [List.nodup_cons]
            exact ⟨fun hmem => ihr.2.2.1 a hmem (List.mem_cons_self _ _), ihr.2.2.2⟩

theorem fillRest_spec : ∀ (avail : List Order) (need : Nat) (sel : List Order),
    (∀ o ∈ fillRest need sel avail, o ∈ avail) ∧
    (∀ o ∈ fillRest need sel avail, o ∉ sel) ∧
    (fillRest need sel avail).Nodup := by
  intro avail
  induction avail with
  | nil => intro need sel; simp [fillRest]
  | cons a rest ih =>
      intro need sel
      by_cases h0 : need = 0
      · simp [fillRest, h0]
      · by_cases hs : a ∈ sel
        · have ihr := ih need sel
          simp only [fillRest, if_neg h0, if_pos hs]
          exact ⟨fun o ho => List.mem_cons_of_mem a (ihr.1 o ho), ihr.2.1, ihr.2.2⟩
        · have ihr := ih (need - 1) (a :: sel)
          simp only [fillRest, if_neg h0, if_neg hs]
          refine ⟨?_, ?_, ?_⟩
          · intro o ho
            rcases List.mem_cons.mp ho with he | ho'
            · exact he ▸ List.mem_cons_self _ _
            · exact List.mem_cons_of_mem a (ihr.1 o ho')
          · intro o ho
            rcases List.mem_cons.mp ho with he | ho'
            · exact he ▸ hs
            · exact fun hmem => ihr.2.1 o ho' (List.mem_cons_of_mem _ hmem)
          · rw [List.nodup_cons]
            exact ⟨fun hmem => ihr.2.1 a hmem (List.mem_cons_self _ _), ihr.2.2⟩

theorem fillRest_length : ∀ (avail : List Order), avail.Nodup →
    ∀ (need : Nat) (sel : List Order),
    need ≤ (avail.filter (fun x => decide (x ∉ sel))).length →
    (fillRest need sel avail).length = need := by
  intro avail
  induction avail with
  | nil =>
      intro _ need sel h
      simp only [List.filter_nil, List.length_nil, Nat.le_zero] at h
      simp [fillRest, h]
  | cons a rest ih =>
      intro hnd need sel h
      rw [List.nodup_cons] at hnd
      by_cases h0 : need = 0
      · simp [fillRest, h0]
      · by_cases hs : a ∈ sel
        · have hfeq : (a :: rest).filter (fun x => decide (x ∉ sel)) =
              rest.filter (fun x => decide (x ∉ sel)) := by
            rw [List.filter_cons_of_neg (by simp [hs])]
          rw [hfeq] at h
          simp only [fillRest, if_neg h0, if_pos hs]
          exact ih hnd.2 need sel h
        · have hfeq2 : rest.filter (fun x => decide (x ∉ (a :: sel))) =
              rest.filter (fun x => decide (x ∉ sel)) := by
            apply List.filter_congr
            intro x hx
            have hxa : x ≠ a := fun he => hnd.1 (he ▸ hx)
            rw [decide_eq_decide]
            simp [List.mem_cons, hxa]
          have hflen : ((a :: rest).filter (fun x => decide (x ∉ sel))).length =
              (rest.filter (fun x => decide (x ∉ sel))).length + 1 := by
            rw [List.filter_cons_of_pos (by simp [hs]), List.length_cons]
          rw [hflen] at h
          have hrec := ih hnd.2 (need - 1) (a :: sel) (by rw [hfeq2]; omega)
          simp only [fillRest, if_neg h0, if_neg hs, List.length_cons]
          omega

theorem count_not_mem_filter (avail s1 : List Order) (hnd : avail.Nodup) :
    avail.length ≤ s1.length + (avail.filter (fun x => decide (x ∉ s1))).length := by
  have h1 := @List.length_eq_length_filter_add Order avail (fun x => decide (x ∈ s1))
  have h2 : (avail.filter (fun x => decide (x ∈ s1))).length ≤ s1.length := by
    have hsub : (avail.filter (fun x => decide (x ∈ s1))) ⊆ s1 := by
      intro x hx
      exact of_decide_eq_true (List.mem_filter.mp hx).2
    exact (List.subperm_of_subset (hnd.filter _) hsub).length_le
  have h3 : avail.filter (fun x => !decide (x ∈ s1)) =
      avail.filter (fun x => decide (x ∉ s1)) := by
    apply List.filter_congr
    intro x _
    simp
  rw [h3] at h1
  omega

theorem twoPass_spec (avail : List Order) (bs : Nat) (hnd : avail.Nodup) :
    (selectUnique (min bs avail.length) [] avail ++
      fillRest (min bs avail.length -
          (selectUnique (min bs avail.length) [] avail).length)
        (selectUnique (min bs avail.length) [] avail) avail).length =
      min bs avail.length ∧
    (selectUnique (min bs avail.length) [] avail ++
      fillRest (min bs avail.length -
          (selectUnique (min bs avail.length) [] avail).length)
        (selectUnique (min bs avail.length) [] avail) avail).Nodup ∧
    (∀ o ∈ selectUnique (min bs avail.length) [] avail ++
      fillRest (min bs avail.length -
          (selectUnique (min bs avail.length) [] avail).length)
        (selectUnique (min bs avail.length) [] avail) avail, o ∈ avail) := by
  have hsu := selectUnique_spec avail (min bs avail.length) []
  have hfr := fillRest_spec avail
    (min bs avail.length - (selectUnique (min bs avail.length) [] avail).length)
    (selectUnique (min bs avail.length) [] avail)
  have hcount := count_not_mem_filter avail
    (selectUnique (min bs avail.length) [] avail) hnd
  have hbc : min bs avail.length ≤ avail.length := Nat.min_le_right _ _
  have hlen1 := hsu.2.1
  have hflen := fillRest_length avail hnd
    (min bs avail.length - (selectUnique (min bs avail.length) [] avail).length)
    (selectUnique (min bs avail.length) [] avail) (by omega)
  refine ⟨?_, ?_, ?_⟩
  · rw [List.length_append, hflen]
    omega
  · rw [List.nodup_append]
    exact ⟨hsu.2.2.2, hfr.2.2, fun a ha hf => hfr.2.1 a hf ha⟩
  · intro o ho
    rcases List.mem_append.mp ho with h | h
    · exact hsu.1 o h
    · exact hfr.1 o h

theorem mem_foldl_erase : ∀ (sel : List Order) (avail : List Order) (x : Order),
    x ∈ sel.foldl (fun av o => av.erase o) avail → x ∈ avail := by
  intro sel
  induction sel with
  | nil => intro avail x h; exact h
  | cons a rest ih =>
      intro avail x h
      rw [List.foldl_cons] at h
      exact List.erase_subset _ _ (ih (avail.erase a) x h)

theorem foldl_erase_spec : ∀ (sel : List Order) (avail : List Order),
    sel.Nodup → (∀ o ∈ sel, o ∈ avail) → avail.Nodup →
    (sel.foldl (fun av o => av.erase o) avail).length + sel.length = avail.length ∧
    (∀ o ∈ sel, o ∉ sel.foldl (fun av o => av.erase o) avail) := by
  intro sel
  induction sel with
  | nil => intro avail _ _ _; simp
  | cons a rest ih =>
      intro avail hsnd hmem hnd
      rw [List.nodup_cons] at hsnd
      have ha : a ∈ avail := hmem a (List.mem_cons_self a rest)
      have hmem' : ∀ o ∈ rest, o ∈ avail.erase a := by
        intro o ho
        have hne : o ≠ a := fun he => hsnd.1 (he ▸ ho)
        exact (List.mem_erase_of_ne hne).mpr (hmem o (List.mem_cons_of_mem a ho))
      have hrec := ih (avail.erase a) hsnd.2 hmem' (hnd.erase a)
      have herase_len := List.length_erase_of_mem ha
      have hlen_pos : 0 < avail.length := List.length_pos_of_mem ha
      constructor
      · rw [List.foldl_cons, List.length_cons]
        omega
      · intro o ho
        rw [List.foldl_cons]
        rcases List.mem_cons.mp ho with he | ho'
        · subst he
          intro hcontra
          exact hnd.not_mem_erase (mem_foldl_erase rest (avail.erase o) o hcontra)
        · exact hrec.2 o ho'

theorem selectedBatch_spec (st : OMState) (hnd : st.available_orders.Nodup) :
    (selectedBatch st).length = min st.batch_size st.available_orders.length ∧
    (selectedBatch st).Nodup ∧
    (∀ o ∈ selectedBatch st, o ∈ st.available_orders) :=
  twoPass_spec st.available_orders st.batch_size hnd

/-- Claim C6: when the available pool is non-empty and the accepted
count is below `active_order_limit`, a single batch release moves
exactly `min(batch_size, pool size)` orders — never more than
`batch_size` — from AVAILABLE to INCOMING: each selected order is
appended to the incoming list with state INCOMING and removed from the
available pool.  Pool orders are field-wise distinct (unique order
ids). -/
theorem batch_release (st : OMState) (roll : Order → ℚ)
    (hAvail : st.available_orders ≠ [])
    (hLim : st.accepted_orders.length < st.active_order_limit)
    (hnd : st.available_orders.Nodup) :
    (selectedBatch st).length = min st.batch_size st.available_orders.length ∧
    (select_next_batch roll st).incoming_orders =
      st.incoming_orders ++ (selectedBatch st).map (markIncoming roll) ∧
    (select_next_batch roll st).available_orders.length + (selectedBatch st).length =
      st.available_orders.length ∧
    (∀ o ∈ selectedBatch st, o ∉ (select_next_batch roll st).available_orders) ∧
    (∀ o ∈ selectedBatch st, (markIncoming roll o).state = OrderState.INCOMING) := by
  have hsb := selectedBatch_spec st hnd
  have hsel : select_next_batch roll st =
      { st with
        available_orders := (selectedBatch st).foldl (fun av o => av.erase o)
          st.available_orders,
        incoming_orders := st.incoming_orders ++ (selectedBatch st).map (markIncoming roll),
        countdown_to_incoming := st.batch_delay } := by
    unfold select_next_batch
    rw [if_neg hAvail, if_neg (Nat.not_le.mpr hLim)]
  have hfold := foldl_erase_spec (selectedBatch st) st.available_orders
    hsb.2.1 hsb.2.2 hnd
  refine ⟨hsb.1, ?_, ?_, ?_, ?_⟩
  · rw [hsel]
  · rw [hsel]
    exact hfold.1
  · intro o ho
    rw [hsel]
    exact hfold.2 o ho
  · intro o _
    rfl

/-- A second sample available-pool order at a different location. -/
def orderC : Order :=
  { orderA with
    order_id := "a3", customer_location := "Kirjasto",
    state := OrderState.AVAILABLE }

/-- Witness for C6: two available orders, batch size 3, no accepted
orders; the release selects exactly min(3, 2) = 2 orders and empties
the pool. -/
theorem batch_release_witness :
    (({ baseOM with available_orders := [orderB, orderC] } : OMState).available_orders ≠ [] ∧
     ({ baseOM with available_orders := [orderB, orderC] } : OMState).accepted_orders.length <
       ({ baseOM with available_orders := [orderB, orderC] } : OMState).active_order_limit ∧
     ({ baseOM with available_orders := [orderB, orderC] } : OMState).available_orders.Nodup) ∧
    (selectedBatch { baseOM with available_orders := [orderB, orderC] }).length = 2 ∧
    (select_next_batch (fun _ => 3)
      { baseOM with available_orders := [orderB, orderC] }).available_orders.length = 0 := by
  have h := batch_release { baseOM with available_orders := [orderB, orderC] }
    (fun _ => 3) (by decide) (by decide) (by decide)
  have hmin : min ({ baseOM with available_orders := [orderB, orderC] } : OMState).batch_size
      ({ baseOM with available_orders := [orderB, orderC] } : OMState).available_orders.length = 2 := by
    decide
  have h1 := h.1
  have h2 := h.2.2.1
  have hsel2 : (selectedBatch { baseOM with available_orders := [orderB, orderC] }).length = 2 :=
    h1.trans hmin
  have hlen : ({ baseOM with available_orders := [orderB, orderC] } : OMState).available_orders.length = 2 := by
    decide
  rw [hsel2, hlen] at h2
  exact ⟨⟨by decide, by decide, by decide⟩, hsel2, by omega⟩
